import Mathlib

/-!
Verification of the Wailo on-device audio coordination engine
(`Waylo_AI/AI_Chat.py`): shallow embedding of the playback streamer
(`streaming_speak`), the recording session (`record`), the deadline watcher
(`_warn_after`), the network monitor (`_network_monitor`), the main-loop
no-speech streak and exit-keyword handling (`main`), and the TTS text
sanitizer (`sanitize_tts_text`), with theorems settling the spec's claims.

Modelling conventions:
* machine floats of the source are modelled by `ℚ` (all constants involved
  are small decimal fractions whose comparisons coincide with IEEE doubles
  at the inputs used);
* Python `int(x)` on the nonnegative quantities involved is `ℕ` floor
  division;
* threading is modelled by explicit schedules: a set-once event flag is
  represented by the instant (poll index or rational time) from which reads
  of the flag return true.
-/

/-! ### Playback streamer (`streaming_speak`, AI_Chat.py lines 504-642)

The device interaction of `streaming_speak` is modelled as a trace of atomic
operations: polls of the global stop flag (`STOP_EVENT.is_set()`), and
device writes (`out.write`).  Chunks are modelled by their byte sizes
(`rsp.audio_content`); a size-0 chunk models an empty `audio_content`
response (skipped by `continue`).  The stop flag is represented by `stopAt`:
the p-th poll (0-indexed) reads true iff `stopAt ≤ p`.  `deadlineRaises`
models the streaming-synthesis iterator raising `DeadlineExceeded` when the
next chunk is pulled after the listed ones: control then jumps from the
`for` loop to the `except` handler, past the flush loop. -/

namespace Playback

def STREAM_RATE : ℕ := 24000

def FRAMES_PER_BUF : ℕ := 2048

/-- Bytes per aligned device write: `chunk_bytes = FRAMES_PER_BUF * 2`. -/
def chunkBytes : ℕ := FRAMES_PER_BUF * 2

/-- `prebuffer_bytes_needed = int(PREBUFFER_MS * STREAM_RATE * 2 / 1000)`. -/
def prebufferBytesNeeded (prebufferMs : ℕ) : ℕ :=
  prebufferMs * STREAM_RATE * 2 / 1000

/-- One atomic device-facing operation of `streaming_speak`: a poll of the
stop flag (recording the value read), or a device write (recording the
buffer length just before the write and the number of bytes written). -/
inductive Op where
  | poll (stopped : Bool)
  | write (bufBefore n : ℕ)
deriving Repr, DecidableEq

/-- The inner drain loop
`while len(buffer) >= chunk_bytes: if STOP: break; write chunk_bytes`.
`p` is the index of the next poll, `b` the buffer length; returns the trace
together with the final poll index and buffer length.  `fuel ≥ b` suffices
since every iteration removes `chunkBytes ≥ 1` bytes. -/
def drainAux (stopAt : ℕ) : ℕ → ℕ → ℕ → List Op × ℕ × ℕ
  | 0, p, b => ([], p, b)
  | fuel + 1, p, b =>
    if b < chunkBytes then ([], p, b)
    else if stopAt ≤ p then ([Op.poll true], p + 1, b)
    else
      let r := drainAux stopAt fuel (p + 1) (b - chunkBytes)
      (Op.poll false :: Op.write b chunkBytes :: r.1, r.2)

def drain (stopAt p b : ℕ) : List Op × ℕ × ℕ := drainAux stopAt b p b

/-- Result of the chunk-consumption `for` loop of `streaming_speak`. -/
structure PCResult where
  trace : List Op
  polls : ℕ
  buf : ℕ
  started : Bool
  consumedAll : Bool
deriving Repr, DecidableEq

/-- The `for rsp in rsp_iter` loop of `streaming_speak`: poll the stop flag
(break on true), skip empty chunks, extend the buffer, hold playback until
the prebuffer threshold is reached, then drain in `chunkBytes` writes. -/
def processChunks (stopAt prebuf : ℕ) : List ℕ → ℕ → ℕ → Bool → PCResult
  | [], p, b, st => ⟨[], p, b, st, true⟩
  | c :: cs, p, b, st =>
    if stopAt ≤ p then ⟨[Op.poll true], p + 1, b, st, false⟩
    else if c = 0 then
      let r := processChunks stopAt prebuf cs (p + 1) b st
      ⟨Op.poll false :: r.trace, r.polls, r.buf, r.started, r.consumedAll⟩
    else
      let b1 := b + c
      if !st && b1 < prebuf then
        let r := processChunks stopAt prebuf cs (p + 1) b1 st
        ⟨Op.poll false :: r.trace, r.polls, r.buf, r.started, r.consumedAll⟩
      else
        let d := drain stopAt (p + 1) b1
        let r := processChunks stopAt prebuf cs d.2.1 d.2.2 true
        ⟨Op.poll false :: (d.1 ++ r.trace), r.polls, r.buf, r.started, r.consumedAll⟩

/-- The flush loop `while len(buffer) > 0: if STOP: break; write min(len, chunk_bytes)`.
Returns trace, final poll index and final (leftover) buffer length. -/
def flushAux (stopAt : ℕ) : ℕ → ℕ → ℕ → List Op × ℕ × ℕ
  | 0, p, b => ([], p, b)
  | fuel + 1, p, b =>
    if b = 0 then ([], p, b)
    else if stopAt ≤ p then ([Op.poll true], p + 1, b)
    else
      let n := min b chunkBytes
      let r := flushAux stopAt fuel (p + 1) (b - n)
      (Op.poll false :: Op.write b n :: r.1, r.2)

def flushLoop (stopAt p b : ℕ) : List Op × ℕ × ℕ := flushAux stopAt b p b

/-- Observable outcome of one `streaming_speak` call: the device trace and
the bytes left in `buffer` when the function returns (discarded audio). -/
structure SpeakResult where
  trace : List Op
  leftover : ℕ
deriving Repr, DecidableEq

/-- `streaming_speak`, modelled at the device boundary.  When the iterator
raises `DeadlineExceeded` (`deadlineRaises` and all chunks were pulled), the
`except gexc.DeadlineExceeded` handler only logs: the flush loop, which sits
inside the `try` after the `for`, is skipped and the buffer is discarded. -/
def streaming_speak (chunks : List ℕ) (prebuf stopAt : ℕ)
    (deadlineRaises : Bool) : SpeakResult :=
  let m := processChunks stopAt prebuf chunks 0 0 false
  if m.consumedAll && deadlineRaises then ⟨m.trace, m.buf⟩
  else
    let f := flushLoop stopAt m.polls m.buf
    ⟨m.trace ++ f.1, f.2.2⟩

/-- Number of device writes in a trace. -/
def countWrites : List Op → ℕ
  | [] => 0
  | Op.write _ _ :: t => countWrites t + 1
  | Op.poll _ :: t => countWrites t

/-- Number of polls in a trace. -/
def pollCount : List Op → ℕ
  | [] => 0
  | Op.write _ _ :: t => pollCount t
  | Op.poll _ :: t => pollCount t + 1

/-- Number of writes occurring strictly after the k-th poll of the trace
(0 when the trace has fewer than k polls). -/
def writesAfterPolls : ℕ → List Op → ℕ
  | _, [] => 0
  | 0, t => countWrites t
  | k + 1, Op.poll _ :: t => writesAfterPolls k t
  | k + 1, Op.write _ _ :: t => writesAfterPolls (k + 1) t

/-- The first write of a trace, as (buffer length before the write, bytes
written), if any. -/
def firstWrite : List Op → Option (ℕ × ℕ)
  | [] => none
  | Op.poll _ :: t => firstWrite t
  | Op.write b n :: _ => some (b, n)

end Playback

/-! ### Recording session (`record`, AI_Chat.py lines 393-447)

A frame is modelled by its VAD classification (`true` = the external
`webrtcvad` classifier reports speech).  `record` reads 30 ms frames:
3 warm-up frames are read and discarded, then up to `limit = int(max_sec/0.03)`
frames are read and buffered; recording stops early when, after speech was
seen, the consecutive-silence count satisfies `silent * 0.03 >= silence`. -/

namespace Recording

/-- `limit = int(max_sec / 0.03)` (ℕ floor division matches the float
computation at the values used, e.g. `60 ↦ 2000`). -/
def limitFrames (max_sec : ℕ) : ℕ := max_sec * 100 / 3

/-- The `for _ in range(limit)` loop of `record`.  Arguments: remaining
iterations, remaining device frames, buffered frames, `spoken`, `silent`.
Returns (buffer, spoken, frames consumed by the loop).  The stop test
`silent * 0.03 >= silence` is written `mkRat (3 * silent) 100 ≥ silence`,
the exact rational value of `silent * 0.03`. -/
def recordLoop (silence : ℚ) : ℕ → List Bool → List Bool → Bool → ℕ →
    List Bool × Bool × ℕ
  | 0, _, buf, spoken, _ => (buf, spoken, 0)
  | _ + 1, [], buf, spoken, _ => (buf, spoken, 0)
  | n + 1, f :: rest, buf, spoken, silent =>
    let buf' := buf ++ [f]
    let spoken' := spoken || f
    let silent' := if f then 0 else if spoken then silent + 1 else silent
    if spoken' && decide (mkRat (3 * silent') 100 ≥ silence) then
      (buf', spoken', 1)
    else
      let r := recordLoop silence n rest buf' spoken' silent'
      (r.1, r.2.1, r.2.2 + 1)

/-- Result of `record`: the captured frames (`none` when no speech was ever
detected) and the total number of frames read from the device, warm-up
included. -/
structure RecordResult where
  frames : Option (List Bool)
  consumed : ℕ
deriving Repr, DecidableEq

/-- `record(max_sec, silence)` on a synthetic device frame stream: discard 3
warm-up frames, run the bounded loop, return `None` when no speech. -/
def record (max_sec : ℕ) (silence : ℚ) (input : List Bool) : RecordResult :=
  let afterPre := input.drop 3
  let r := recordLoop silence (limitFrames max_sec) afterPre [] false 0
  ⟨if r.2.1 then some r.1 else none, 3 + r.2.2⟩

end Recording

/-! ### Deadline watcher (`_warn_after`, AI_Chat.py lines 188-196)

The worker polls `STOP_EVENT` and the cancel event at `waited = 0, 0.05,
0.10, …` while `waited < delay_sec`, then re-reads both flags once and emits
the alert iff both are still clear.  A set-once event is modelled by the
time (in seconds, `ℚ`) from which reads return true (`none` = never set). -/

namespace Warn

/-- Read of a set-once event flag at time `t`. -/
def isSetAt (a : Option ℚ) (t : ℚ) : Bool :=
  match a with
  | none => false
  | some x => decide (x ≤ t)

/-- The worker loop of `_warn_after`, polling at times `k * 0.05`
(written `mkRat k 20`, the exact value).  Returns the number of alerts
emitted (0 or 1).  `fuel` bounds the remaining iterations; `warnFuel`
below is always sufficient. -/
def warnFromFuel (delay : ℚ) (cancelAt stopAt : Option ℚ) : ℕ → ℕ → ℕ
  | 0, _ => 0
  | fuel + 1, k =>
    let t : ℚ := mkRat k 20
    if decide (t < delay) && !isSetAt stopAt t && !isSetAt cancelAt t then
      warnFromFuel delay cancelAt stopAt fuel (k + 1)
    else if !isSetAt stopAt t && !isSetAt cancelAt t then 1
    else 0

/-- Index of the final poll of the worker: the least `k` with
`k * 0.05 ≥ delay`, i.e. `⌈20 * delay⌉` clamped to `ℕ` (computed from the
reduced fraction so that it evaluates in the kernel). -/
def finalPollIndex (delay : ℚ) : ℕ :=
  ((delay.num * 20).toNat + delay.den - 1) / delay.den

def warnFuel (delay : ℚ) : ℕ := finalPollIndex delay + 1

/-- Number of alerts emitted by `_warn_after(delay, cancel_event, msg)` when
the cancel event becomes set at `cancelAt` and the global stop at `stopAt`. -/
def warn_after (delay : ℚ) (cancelAt stopAt : Option ℚ) : ℕ :=
  warnFromFuel delay cancelAt stopAt (warnFuel delay) 0

end Warn

/-! ### Network monitor (`_network_monitor`, AI_Chat.py lines 198-217)

One loop iteration per probe, one second apart; tick `k` reads probe
`probes[k]` at time `now = k`.  `offline_since` stores the tick at which the
current outage was first observed; the Python truthiness test
`offline_since and …` is `isSome` here, since `time.time()` is never 0.
`T` is `OFFLINE_ANNOUNCE_SEC` (default 5). -/

namespace NetMon

inductive NetAlert where
  | offline
  | backOnline
deriving Repr, DecidableEq

structure NetState where
  lastOnline : Option Bool
  offlineSince : Option ℕ
deriving Repr, DecidableEq

/-- One iteration of the `while` body of `_network_monitor` at tick `now`
with probe result `online`; returns the new state and emitted alerts. -/
def netStep (T : ℕ) (st : NetState) (online : Bool) (now : ℕ) :
    NetState × List NetAlert :=
  match st.lastOnline with
  | none => (⟨some online, if online then none else some now⟩, [])
  | some lo =>
    let e := if online && !lo then (some NetAlert.backOnline, (none : Option ℕ))
             else if !online && lo then (none, some now)
             else (none, st.offlineSince)
    let alerts1 := match e.1 with | some a => [a] | none => []
    match e.2 with
    | some j =>
      if !online && decide (T ≤ now - j) then
        (⟨some online, none⟩, alerts1 ++ [NetAlert.offline])
      else (⟨some online, some j⟩, alerts1)
    | none => (⟨some online, none⟩, alerts1)

/-- Run the monitor over the remaining probes, tagging alerts with their
tick. -/
def netRunAux (T : ℕ) : List Bool → NetState → ℕ → List (ℕ × NetAlert)
  | [], _, _ => []
  | o :: rest, st, k =>
    let r := netStep T st o k
    r.2.map (fun a => (k, a)) ++ netRunAux T rest r.1 (k + 1)

/-- `_network_monitor` over a finite probe sequence, from process start. -/
def network_monitor (T : ℕ) (probes : List Bool) : List (ℕ × NetAlert) :=
  netRunAux T probes ⟨none, none⟩ 0

/-- Probe value at tick `k` (false beyond the end of the schedule). -/
def probeAt (probes : List Bool) (k : ℕ) : Bool := probes.getD k false

/-- Start of the maximal offline run ending at tick `t` (meaningful when
`probeAt probes t = false`). -/
def runStart (probes : List Bool) : ℕ → ℕ
  | 0 => 0
  | t + 1 => if probeAt probes t then t + 1 else runStart probes t

/-- Closed form of `last_online` at the start of tick `k`. -/
def lastSpec (probes : List Bool) (k : ℕ) : Option Bool :=
  if k = 0 then none else some (probeAt probes (k - 1))

/-- Closed form of `offline_since` at the start of tick `k` (valid for
`1 ≤ T`). -/
def osSpec (T : ℕ) (probes : List Bool) (k : ℕ) : Option ℕ :=
  if k = 0 then none
  else if probeAt probes (k - 1) then none
  else
    let j := runStart probes (k - 1)
    if k - 1 - j < T then some j else none

/-- Spec predicate: an offline alert is emitted at tick `k`. -/
def offlineSpec (T : ℕ) (probes : List Bool) (k : ℕ) : Bool :=
  decide (k < probes.length) && decide (T ≤ k) &&
  (List.range' (k - T) (T + 1)).all (fun i => !probeAt probes i) &&
  (decide (k - T = 0) || probeAt probes (k - T - 1))

/-- Spec predicate: a back-online alert is emitted at tick `k` (an
offline-to-online recovery edge). -/
def backSpec (probes : List Bool) (k : ℕ) : Bool :=
  decide (1 ≤ k) && decide (k < probes.length) &&
  probeAt probes k && !probeAt probes (k - 1)

/-- All alerts of the monitor, computed directly from the probe sequence. -/
def alertsSpec (T : ℕ) (probes : List Bool) : List (ℕ × NetAlert) :=
  (List.range probes.length).flatMap (fun k =>
    (if backSpec probes k then [(k, NetAlert.backOnline)] else []) ++
    (if offlineSpec T probes k then [(k, NetAlert.offline)] else []))

end NetMon

/-! ### Main-loop no-speech streak (`main`, AI_Chat.py lines 752-786)

Each loop iteration performs one capture.  `true` = `record()` returned
audio, `false` = it returned `None`.  On the very first attempt with
`EXIT_ON_NO_MIC` set, an empty capture terminates the process
(`sys.exit(1)`).  Otherwise an empty capture increments
`main.no_speech_streak`; when the streak reaches `NO_SPEECH_REPEATS_MAX`
the "Please speak a little louder." alert fires and the streak resets to 0.
A successful capture sets `first_mic_attempt = False` but does NOT touch
the streak. -/

namespace MainLoop

structure StreakResult where
  alerts : List ℕ
  exitedAt : Option ℕ
  finalStreak : ℕ
deriving Repr, DecidableEq

/-- The streak-relevant slice of the main loop over a list of capture
outcomes; `k` is the iteration index. -/
def streakRun (maxR : ℕ) (exitOnNoMic : Bool) :
    List Bool → Bool → ℕ → ℕ → StreakResult
  | [], _, streak, _ => ⟨[], none, streak⟩
  | ok :: rest, firstMic, streak, k =>
    if ok then streakRun maxR exitOnNoMic rest false streak (k + 1)
    else if firstMic && exitOnNoMic then ⟨[], some k, streak⟩
    else
      let s1 := streak + 1
      if maxR ≤ s1 then
        let r := streakRun maxR exitOnNoMic rest firstMic 0 (k + 1)
        ⟨k :: r.alerts, r.exitedAt, r.finalStreak⟩
      else streakRun maxR exitOnNoMic rest firstMic s1 (k + 1)

/-- The main loop's no-speech behaviour from process start. -/
def main_no_speech (maxR : ℕ) (exitOnNoMic : Bool) (outcomes : List Bool) :
    StreakResult :=
  streakRun maxR exitOnNoMic outcomes true 0 0

/-- The claim's reading of the streak ("captures are counted as consecutive
only when not separated by a successful capture"): a successful capture
resets the streak.  Stated from the claim's words, for comparison with the
code's `streakRun`. -/
def claimStreakAlerts (maxR : ℕ) : List Bool → ℕ → ℕ → List ℕ
  | [], _, _ => []
  | ok :: rest, streak, k =>
    if ok then claimStreakAlerts maxR rest 0 (k + 1)
    else
      let s1 := streak + 1
      if maxR ≤ s1 then k :: claimStreakAlerts maxR rest 0 (k + 1)
      else claimStreakAlerts maxR rest s1 (k + 1)

/-- Number of empty captures among outcomes `0..k` inclusive. -/
def emptiesUpTo (outcomes : List Bool) (k : ℕ) : ℕ :=
  ((outcomes.take (k + 1)).filter (fun o => !o)).length

end MainLoop

/-! ### Exit keywords (`main`, AI_Chat.py lines 834-837)

`if utter.lower().strip() in {"exit", "quit", "bye"}: streaming_speak("Goodbye!"); break`.
Python `str.lower`/`str.strip` are modelled on the ASCII range (sufficient
for the keyword comparison; non-ASCII characters never lower-case to ASCII
letters under either semantics for the characters relevant here). -/

namespace ExitWords

def pyLowerChar (c : Char) : Char :=
  if 'A' ≤ c ∧ c ≤ 'Z' then Char.ofNat (c.toNat + 32) else c

def pyLower (s : List Char) : List Char := s.map pyLowerChar

def pyIsStripSpace (c : Char) : Bool :=
  c = ' ' || c = '\t' || c = '\n' || c = '\r' || c = '\x0b' || c = '\x0c'

def pyStrip (s : List Char) : List Char :=
  (((s.dropWhile pyIsStripSpace).reverse).dropWhile pyIsStripSpace).reverse

def EXIT_WORDS : List (List Char) :=
  ["exit".toList, "quit".toList, "bye".toList]

/-- The loop's exit test: the lowered, stripped utterance is *equal* to one
of the keywords. -/
def exit_requested (utter : List Char) : Bool :=
  decide (pyStrip (pyLower utter) ∈ EXIT_WORDS)

/-- Whether the main loop plays the "Goodbye!" farewell and terminates
after this utterance. -/
def farewellAndBreak (utter : List Char) : Bool := exit_requested utter

/-- The claim's occurrence test: some exit keyword occurs (as a substring)
in the utterance. -/
def keywordOccurs (utter : List Char) : Bool :=
  decide ("exit".toList <:+: utter) || decide ("quit".toList <:+: utter) ||
  decide ("bye".toList <:+: utter)

end ExitWords

/-! ### TTS sanitizer (`sanitize_tts_text`, AI_Chat.py lines 123-137) and
the text sent by `streaming_speak` (lines 516-548)

`sanitize_tts_text` removes U+FE0F and U+200D, removes the bidi isolates
U+2066–U+2069, removes the `EMOJI_RE` character classes, replaces every run
of ≥ 2 whitespace characters by a single space (`re.sub(r"\s{2,}", " ")`),
and strips both ends.  `streaming_speak` assigns
`text = sanitize_tts_text(text)` before building its request generator,
which slices `text` in `CHUNK_CHARS`-character pieces. -/

namespace TTS

/-- Code-point test. -/
def isCp (c : Char) (n : ℕ) : Bool := decide (c.toNat = n)

/-- Python regex `\\s` on `str` (whitespace characters), by code point. -/
def pyIsSpace (c : Char) : Bool :=
  isCp c 0x20 || isCp c 0x9 || isCp c 0xA || isCp c 0xD || isCp c 0xB ||
  isCp c 0xC || isCp c 0x1C || isCp c 0x1D || isCp c 0x1E || isCp c 0x1F ||
  isCp c 0x85 || isCp c 0xA0 || isCp c 0x1680 ||
  (decide (0x2000 ≤ c.toNat) && decide (c.toNat ≤ 0x200A)) ||
  isCp c 0x2028 || isCp c 0x2029 || isCp c 0x202F || isCp c 0x205F ||
  isCp c 0x3000

/-- `text.replace("\\uFE0F", "").replace("\\u200D", "")` (variation selector
16 and zero-width joiner). -/
def isVariationOrZWJ (c : Char) : Bool := isCp c 0xFE0F || isCp c 0x200D

/-- `re.sub(r"[\\u2066-\\u2069]", "", text)` (bidi isolate marks). -/
def isBidiIsolate (c : Char) : Bool :=
  decide (0x2066 ≤ c.toNat) && decide (c.toNat ≤ 0x2069)

def inRange (lo hi : ℕ) (c : Char) : Bool :=
  decide (lo ≤ c.toNat) && decide (c.toNat ≤ hi)

/-- Character classes of `EMOJI_RE`. -/
def isEmojiChar (c : Char) : Bool :=
  inRange 0x1F600 0x1F64F c || inRange 0x1F300 0x1F5FF c ||
  inRange 0x1F680 0x1F6FF c || inRange 0x1F1E0 0x1F1FF c ||
  inRange 0x2702 0x27B0 c || inRange 0x24C2 0x1F251 c ||
  inRange 0x1F900 0x1F9FF c || inRange 0x1FA70 0x1FAFF c ||
  inRange 0x2600 0x26FF c || inRange 0x2B00 0x2BFF c

/-- The three character-removal passes, in source order. -/
def removeFiltered (l : List Char) : List Char :=
  ((l.filter (fun c => !isVariationOrZWJ c)).filter
      (fun c => !isBidiIsolate c)).filter (fun c => !isEmojiChar c)

/-- `re.sub(r"\s{2,}", " ", text)`: every maximal run of ≥ 2 whitespace
characters becomes one space; an isolated whitespace character is kept
verbatim. -/
def collapseWs : List Char → List Char
  | [] => []
  | c :: rest =>
    let r := collapseWs rest
    if pyIsSpace c then
      match r with
      | [] => [c]
      | d :: t => if pyIsSpace d then ' ' :: t else c :: d :: t
    else c :: r

def dropTrailingWs : List Char → List Char
  | [] => []
  | c :: t =>
    let r := dropTrailingWs t
    if r.isEmpty && pyIsSpace c then [] else c :: r

/-- `.strip()`. -/
def stripWs (l : List Char) : List Char :=
  dropTrailingWs (l.dropWhile pyIsSpace)

/-- `sanitize_tts_text` (the `if not text: return text` guard included). -/
def sanitize_tts_text (l : List Char) : List Char :=
  if l = [] then l
  else stripWs (collapseWs (removeFiltered l))

def CHUNK_CHARS : ℕ := 150

/-- Python slicing `[text[i:i+n] for i in range(0, len(text), n)]`. -/
def chunksOf (n : ℕ) : List Char → List (List Char)
  | [] => []
  | c :: rest => (c :: rest.take (n - 1)) :: chunksOf n (rest.drop (n - 1))
termination_by l => l.length
decreasing_by
  simp only [List.length_drop, List.length_cons]
  omega

/-- The text chunks `streaming_speak` sends to streaming synthesis for
argument `t`: it first assigns `text = sanitize_tts_text(text)`, then
slices that in `CHUNK_CHARS` pieces. -/
def tts_request_texts (t : List Char) : List (List Char) :=
  chunksOf CHUNK_CHARS (sanitize_tts_text t)

/-- No two adjacent whitespace characters. -/
def noTwoSpaces : List Char → Bool
  | c :: d :: t => !(pyIsSpace c && pyIsSpace d) && noTwoSpaces (d :: t)
  | _ => true

end TTS

/-! ## Theorems -/

/-! ### C3: concrete capture scenario -/

/-- C3: `record(max_sec=60, silence=0.8)` fed 3 warm-up frames then 10
speech frames then 30 silence frames stops on the 27th silence frame after
speech (only 3 + 37 = 40 of the 43 device frames are read) and returns
exactly the 37 frames read by the loop (10 speech + 27 silence), the 3
discarded warm-up frames excluded. -/
theorem C3_capture_scenario :
    Recording.record 60 (mkRat 8 10)
        (List.replicate 3 false ++ List.replicate 10 true ++
          List.replicate 30 false) =
      ⟨some (List.replicate 10 true ++ List.replicate 27 false), 3 + 37⟩ ∧
    (List.replicate 10 true ++ (List.replicate 27 false : List Bool)).length
      = 37 := by
  decide

/-! ### C2: deadline-exceeded discards the buffer (code bug) -/

/-- C2: the claim says that on `DeadlineExceeded` the buffered bytes are
flushed to the device.  The code's own handler logs "flushing buffer", but
the flush loop sits inside the `try` after the `for`, so the exception skips
it: with one 100-byte chunk buffered (below the 3840-byte prebuffer) and the
iterator then raising `DeadlineExceeded`, no device write ever happens and
the 100 bytes are discarded — whereas on normal termination of the same
stream they are flushed. -/
theorem C2_timeout_discards_buffer :
    (Playback.streaming_speak [100] (Playback.prebufferBytesNeeded 80) 10
        true).leftover = 100 ∧
    Playback.countWrites
      (Playback.streaming_speak [100] (Playback.prebufferBytesNeeded 80) 10
        true).trace = 0 ∧
    (Playback.streaming_speak [100] (Playback.prebufferBytesNeeded 80) 10
        false).leftover = 0 ∧
    Playback.countWrites
      (Playback.streaming_speak [100] (Playback.prebufferBytesNeeded 80) 10
        false).trace = 1 := by
  decide

/-! ### C1: prebuffer threshold before the first write -/

/-- C1 counterexample: a chunk sequence totalling a single byte.  The
end-of-stream flush writes it, so the first device write of the session
occurs with only 1 byte ever buffered — far below the 3840-byte threshold
claimed to gate every first write. -/
theorem C1_counterexample_flush_below_threshold :
    Playback.firstWrite
        (Playback.streaming_speak [1] (Playback.prebufferBytesNeeded 80) 10
          false).trace = some (1, 1) ∧
    1 < Playback.prebufferBytesNeeded 80 := by
  decide

/-! ### C4: deadline watcher counterexample -/

/-- C4 counterexample: delay 0.07 s, cancel token set at 0.08 s (after the
delay elapsed, neither flag set before it), global stop never set.  The
claim requires exactly one alert; the worker overshoots the delay to its
0.05 s grid (final poll at 0.10 s), sees the token set, and emits zero. -/
theorem C4_counterexample_cancel_after_delay :
    Warn.warn_after (mkRat 7 100) (some (mkRat 8 100)) none = 0 ∧
    mkRat 7 100 < mkRat 8 100 := by
  decide

/-! ### C6: no-speech streak counterexample -/

/-- C6 counterexample: outcomes success, empty, empty, success, empty with
limit 3.  Under the claim's "consecutive" semantics the final empty capture
has a streak of 1 and no alert ever fires; the code never resets the streak
on success, so the cumulative count reaches 3 at iteration 4 and the alert
fires there. -/
theorem C6_counterexample_success_does_not_reset :
    (MainLoop.main_no_speech 3 true [true, false, false, true, false]).alerts
      = [4] ∧
    MainLoop.claimStreakAlerts 3 [true, false, false, true, false] 0 0
      = [] := by
  decide

/-! ### C9: exit keywords -/

/-- C9 counterexample: the utterance "exit now" contains the exit keyword
"exit", so the claim requires a farewell and loop termination; the code
compares the whole lowered/stripped utterance for set membership, which
fails, and the loop continues. -/
theorem C9_counterexample_occurrence_not_equality :
    ExitWords.keywordOccurs "exit now".toList = true ∧
    ExitWords.farewellAndBreak "exit now".toList = false := by
  decide

/-- C9 amended: the main loop plays the farewell and terminates exactly for
those utterances whose Python-`lower().strip()` normal form is literally
"exit", "quit" or "bye" — keyword occurrence inside a longer utterance does
not trigger it. -/
theorem C9_amended_exact_match (utter : List Char) :
    ExitWords.farewellAndBreak utter = true ↔
      (ExitWords.pyStrip (ExitWords.pyLower utter) = "exit".toList ∨
       ExitWords.pyStrip (ExitWords.pyLower utter) = "quit".toList ∨
       ExitWords.pyStrip (ExitWords.pyLower utter) = "bye".toList) := by
  simp [ExitWords.farewellAndBreak, ExitWords.exit_requested,
    ExitWords.EXIT_WORDS]

/-! ### C8: all-silence capture -/

/-- On an all-silence frame list the bounded loop never detects speech,
never stops early, and consumes exactly its iteration budget. -/
theorem recordLoop_all_silence (silence : ℚ) :
    ∀ (n : ℕ) (l buf : List Bool) (silent : ℕ),
      (∀ f ∈ l, f = false) → n ≤ l.length →
      Recording.recordLoop silence n l buf false silent =
        (buf ++ l.take n, false, n) := by
  intro n
  induction n with
  | zero => intro l buf silent _ _; simp [Recording.recordLoop]
  | succ n ih =>
    intro l buf silent hall hlen
    cases l with
    | nil => simp at hlen
    | cons f rest =>
      have hf : f = false := hall f (List.mem_cons_self f rest)
      subst hf
      rw [Recording.recordLoop]
      have hrec := ih rest (buf ++ [false]) silent
        (fun g hg => hall g (List.mem_cons_of_mem _ hg))
        (by simpa using hlen)
      simp only [Bool.false_or, Bool.or_false, if_neg, Bool.false_and,
        Bool.false_eq_true, ite_false]
      simp only [hrec]
      simp [List.take_succ_cons]

/-- C8: for every frame sequence containing zero speech frames (and long
enough that the device never starves), `record` returns `None`, and only
after reading the full `int(max_sec/0.03)` frames plus the 3 warm-up
frames — it never stops early on an all-silence stream. -/
theorem C8_all_silence_runs_full_duration (max_sec : ℕ) (silence : ℚ)
    (input : List Bool) (hall : ∀ f ∈ input, f = false)
    (hlen : 3 + Recording.limitFrames max_sec ≤ input.length) :
    Recording.record max_sec silence input =
      ⟨none, 3 + Recording.limitFrames max_sec⟩ := by
  have hall' : ∀ f ∈ input.drop 3, f = false :=
    fun g hg => hall g ((List.drop_sublist 3 input).mem hg)
  have hlen' : Recording.limitFrames max_sec ≤ (input.drop 3).length := by
    simp only [List.length_drop]; omega
  simp only [Recording.record,
    recordLoop_all_silence silence (Recording.limitFrames max_sec)
      (input.drop 3) [] 0 hall' hlen']
  simp

/-- Witness for `C8_all_silence_runs_full_duration` at `max_sec = 1`
(limit 33 frames) on 36 silence frames. -/
theorem C8_all_silence_witness :
    Recording.record 1 (mkRat 8 10) (List.replicate 36 false) =
      ⟨none, 3 + Recording.limitFrames 1⟩ :=
  C8_all_silence_runs_full_duration 1 (mkRat 8 10) (List.replicate 36 false)
    (by decide) (by decide)

/-! ### C1 (amended) and C7: playback trace lemmas -/

namespace Playback

theorem firstWrite_append (t1 t2 : List Op) :
    firstWrite (t1 ++ t2) = (firstWrite t1).or (firstWrite t2) := by
  induction t1 with
  | nil => simp [firstWrite]
  | cons o t ih =>
    cases o with
    | poll s => simpa [firstWrite] using ih
    | write b n => simp [firstWrite]

theorem drainAux_firstWrite (stopAt fuel p b : ℕ) :
    firstWrite (drainAux stopAt fuel p b).1 = none ∨
      firstWrite (drainAux stopAt fuel p b).1 = some (b, chunkBytes) := by
  cases fuel with
  | zero => left; rfl
  | succ fuel =>
    rw [drainAux]
    split
    · left; rfl
    · split
      · left; rfl
      · right; rfl

theorem drainAux_no_write_buf (stopAt fuel p b : ℕ)
    (h : firstWrite (drainAux stopAt fuel p b).1 = none) :
    (drainAux stopAt fuel p b).2.2 = b := by
  cases fuel with
  | zero => rfl
  | succ fuel =>
    rw [drainAux] at h ⊢
    by_cases h1 : b < chunkBytes
    · simp [h1]
    · by_cases h2 : stopAt ≤ p
      · simp [h1, h2]
      · simp [h1, h2, firstWrite] at h

/-- Before the chunk sequence terminates, the first device write can only
happen after the buffer reached the prebuffer threshold: any first write of
the consumption loop's trace has pre-write buffer length `≥ prebuf`. -/
theorem drain_def (stopAt p b : ℕ) :
    drain stopAt p b = drainAux stopAt b p b := rfl

/-- Before the chunk sequence terminates, the first device write can only
happen after the buffer reached the prebuffer threshold: any first write of
the consumption loop's trace has pre-write buffer length `≥ prebuf`. -/
theorem processChunks_firstWrite_ge_prebuf (stopAt prebuf : ℕ) :
    ∀ (cs : List ℕ) (p b : ℕ) (st : Bool), (st = false ∨ prebuf ≤ b) →
      ∀ bb n,
        firstWrite (processChunks stopAt prebuf cs p b st).trace
          = some (bb, n) → prebuf ≤ bb := by
  intro cs
  induction cs with
  | nil => intro p b st _ bb n h; simp [processChunks, firstWrite] at h
  | cons c cs ih =>
    intro p b st hst bb n h
    simp only [processChunks] at h
    by_cases h1 : stopAt ≤ p
    · simp [h1, firstWrite] at h
    · simp only [if_neg h1] at h
      by_cases h2 : c = 0
      · simp only [if_pos h2, firstWrite] at h
        exact ih (p + 1) b st hst bb n h
      · simp only [if_neg h2] at h
        by_cases h3 : (!st && decide (b + c < prebuf)) = true
        · simp only [if_pos h3, firstWrite] at h
          have hst' : st = false := by
            cases st with
            | false => rfl
            | true => simp at h3
          exact ih (p + 1) (b + c) st (Or.inl hst') bb n h
        · simp only [if_neg h3] at h
          have hb1 : prebuf ≤ b + c := by
            rcases hst with hst | hst
            · subst hst
              simp only [Bool.not_false, Bool.true_and,
                decide_eq_true_eq] at h3
              omega
            · omega
          simp only [firstWrite, firstWrite_append, drain_def] at h
          rcases drainAux_firstWrite stopAt (b + c) (p + 1) (b + c) with hd | hd
          · rw [hd, Option.none_or] at h
            have hbuf := drainAux_no_write_buf stopAt (b + c) (p + 1) (b + c) hd
            refine ih _ _ true (Or.inr ?_) bb n h
            rw [hbuf]; exact hb1
          · rw [hd] at h
            simp only [Option.or_some, Option.some.injEq, Prod.mk.injEq] at h
            omega

end Playback

/-- C1 (amended): for every chunk sequence, arrival pattern, stop schedule
and prebuffer setting, a first device write issued while the chunk stream is
still being consumed (the `for` loop of `streaming_speak`, i.e. before the
end-of-stream flush) happens with at least the prebuffer threshold of bytes
buffered; and the threshold for `prebufferMs = 80` at 24 kHz is 3840 bytes. -/
theorem C1_amended_prebuffer_gates_midstream_writes :
    (∀ (chunks : List ℕ) (prebuf stopAt bb n : ℕ),
        Playback.firstWrite
            (Playback.processChunks stopAt prebuf chunks 0 0 false).trace
          = some (bb, n) → prebuf ≤ bb) ∧
    Playback.prebufferBytesNeeded 80 = 3840 := by
  constructor
  · intro chunks prebuf stopAt bb n h
    exact Playback.processChunks_firstWrite_ge_prebuf stopAt prebuf chunks
      0 0 false (Or.inl rfl) bb n h
  · decide

/-- Witness for `C1_amended_prebuffer_gates_midstream_writes`: chunks of
4000 and 100 bytes with threshold 3840; the first mid-stream write occurs
with 4100 bytes buffered. -/
theorem C1_amended_witness :
    Playback.firstWrite
        (Playback.processChunks 1000 3840 [4000, 100] 0 0 false).trace
      = some (4100, 4096) ∧ (3840 : ℕ) ≤ 4100 :=
  ⟨by decide,
    C1_amended_prebuffer_gates_midstream_writes.1 [4000, 100] 3840 1000
      4100 4096 (by decide)⟩

namespace Playback

theorem writesAfterPolls_nil (k : ℕ) : writesAfterPolls k [] = 0 := by
  cases k <;> rfl

theorem writesAfterPolls_zero (t : List Op) :
    writesAfterPolls 0 t = countWrites t := by
  cases t <;> rfl

theorem writesAfterPolls_succ_poll (k : ℕ) (s : Bool) (t : List Op) :
    writesAfterPolls (k + 1) (Op.poll s :: t) = writesAfterPolls k t := rfl

theorem writesAfterPolls_succ_write (k : ℕ) (b n : ℕ) (t : List Op) :
    writesAfterPolls (k + 1) (Op.write b n :: t) =
      writesAfterPolls (k + 1) t := rfl

theorem countWrites_append (t1 t2 : List Op) :
    countWrites (t1 ++ t2) = countWrites t1 + countWrites t2 := by
  induction t1 with
  | nil => simp [countWrites]
  | cons o t ih =>
    cases o with
    | poll s => simpa [countWrites] using ih
    | write b n =>
      rw [List.cons_append]
      simp only [countWrites]
      rw [ih]
      omega

theorem pollCount_append (t1 t2 : List Op) :
    pollCount (t1 ++ t2) = pollCount t1 + pollCount t2 := by
  induction t1 with
  | nil => simp [pollCount]
  | cons o t ih =>
    cases o with
    | poll s =>
      rw [List.cons_append]
      simp only [pollCount]
      rw [ih]
      omega
    | write b n => simpa [pollCount] using ih

theorem writesAfterPolls_append_le (t1 t2 : List Op) :
    ∀ k, k ≤ pollCount t1 →
      writesAfterPolls k (t1 ++ t2) =
        writesAfterPolls k t1 + countWrites t2 := by
  induction t1 with
  | nil =>
    intro k hk
    simp only [pollCount] at hk
    interval_cases k
    simp [writesAfterPolls_zero, writesAfterPolls_nil, countWrites]
  | cons o t ih =>
    intro k hk
    cases o with
    | poll s =>
      cases k with
      | zero =>
        simp [writesAfterPolls_zero, countWrites_append, countWrites]
      | succ k =>
        simp only [List.cons_append, writesAfterPolls_succ_poll]
        exact ih k (by simp [pollCount] at hk; omega)
    | write b n =>
      cases k with
      | zero =>
        simp [writesAfterPolls_zero, countWrites_append, countWrites]
        try omega
      | succ k =>
        simp only [List.cons_append, writesAfterPolls_succ_write]
        rw [ih (k + 1) (by simpa [pollCount] using hk)]

theorem writesAfterPolls_append_gt (t1 t2 : List Op) :
    ∀ k, pollCount t1 < k →
      writesAfterPolls k (t1 ++ t2) =
        writesAfterPolls (k - pollCount t1) t2 := by
  induction t1 with
  | nil => intro k hk; simp [pollCount]
  | cons o t ih =>
    intro k hk
    cases o with
    | poll s =>
      simp only [pollCount] at hk
      cases k with
      | zero => omega
      | succ k =>
        simp only [List.cons_append, writesAfterPolls_succ_poll]
        rw [ih k (by omega)]
        congr 1
        simp only [pollCount]
        omega
    | write b n =>
      simp only [pollCount] at hk
      cases k with
      | zero => omega
      | succ k =>
        simp only [List.cons_append, writesAfterPolls_succ_write]
        rw [ih (k + 1) (by omega)]
        congr 1

theorem drainAux_stop_writes (stopAt fuel p b : ℕ) (h : stopAt ≤ p) :
    countWrites (drainAux stopAt fuel p b).1 = 0 := by
  cases fuel with
  | zero => rfl
  | succ fuel =>
    rw [drainAux]
    by_cases h1 : b < chunkBytes
    · simp [h1, countWrites]
    · simp [h1, h, countWrites]

theorem flushAux_stop_writes (stopAt fuel p b : ℕ) (h : stopAt ≤ p) :
    countWrites (flushAux stopAt fuel p b).1 = 0 := by
  cases fuel with
  | zero => rfl
  | succ fuel =>
    rw [flushAux]
    by_cases h1 : b = 0
    · simp [h1, countWrites]
    · simp [h1, h, countWrites]

theorem processChunks_stop_writes (stopAt prebuf : ℕ) (cs : List ℕ)
    (p b : ℕ) (st : Bool) (h : stopAt ≤ p) :
    countWrites (processChunks stopAt prebuf cs p b st).trace = 0 := by
  cases cs with
  | nil => rfl
  | cons c cs => simp [processChunks, h, countWrites]

theorem drainAux_polls (stopAt : ℕ) :
    ∀ (fuel p b : ℕ),
      (drainAux stopAt fuel p b).2.1 =
        p + pollCount (drainAux stopAt fuel p b).1 := by
  intro fuel
  induction fuel with
  | zero => intro p b; simp [drainAux, pollCount]
  | succ fuel ih =>
    intro p b
    rw [drainAux]
    by_cases h1 : b < chunkBytes
    · simp [h1, pollCount]
    · by_cases h2 : stopAt ≤ p
      · simp [h1, h2, pollCount]
      · simp only [if_neg h1, if_neg h2, pollCount]
        rw [ih (p + 1) (b - chunkBytes)]
        omega

theorem flushAux_polls (stopAt : ℕ) :
    ∀ (fuel p b : ℕ),
      (flushAux stopAt fuel p b).2.1 =
        p + pollCount (flushAux stopAt fuel p b).1 := by
  intro fuel
  induction fuel with
  | zero => intro p b; simp [flushAux, pollCount]
  | succ fuel ih =>
    intro p b
    rw [flushAux]
    by_cases h1 : b = 0
    · simp [h1, pollCount]
    · by_cases h2 : stopAt ≤ p
      · simp [h1, h2, pollCount]
      · simp only [if_neg h1, if_neg h2, pollCount]
        rw [ih (p + 1) (b - min b chunkBytes)]
        omega

theorem processChunks_polls (stopAt prebuf : ℕ) :
    ∀ (cs : List ℕ) (p b : ℕ) (st : Bool),
      (processChunks stopAt prebuf cs p b st).polls =
        p + pollCount (processChunks stopAt prebuf cs p b st).trace := by
  intro cs
  induction cs with
  | nil => intro p b st; simp [processChunks, pollCount]
  | cons c cs ih =>
    intro p b st
    simp only [processChunks]
    by_cases h1 : stopAt ≤ p
    · simp [h1, pollCount]
    · simp only [if_neg h1]
      by_cases h2 : c = 0
      · simp only [if_pos h2, pollCount]
        rw [ih (p + 1) b st]
        omega
      · simp only [if_neg h2]
        by_cases h3 : (!st && decide (b + c < prebuf)) = true
        · simp only [if_pos h3, pollCount]
          rw [ih (p + 1) (b + c) st]
          omega
        · simp only [if_neg h3, pollCount, pollCount_append, drain_def]
          rw [ih _ _ true, drainAux_polls stopAt (b + c) (p + 1) (b + c)]
          omega

theorem drainAux_writesAfter (stopAt : ℕ) :
    ∀ (fuel p b : ℕ),
      writesAfterPolls (stopAt - p) (drainAux stopAt fuel p b).1 ≤ 1 := by
  intro fuel
  induction fuel with
  | zero => intro p b; simp [drainAux, writesAfterPolls_nil]
  | succ fuel ih =>
    intro p b
    rw [drainAux]
    by_cases h1 : b < chunkBytes
    · simp [h1, writesAfterPolls_nil]
    · by_cases h2 : stopAt ≤ p
      · have : stopAt - p = 0 := by omega
        simp [h1, h2, this, writesAfterPolls_zero, countWrites]
      · simp only [if_neg h1, if_neg h2]
        have hsp : stopAt - p = (stopAt - (p + 1)) + 1 := by omega
        rw [hsp, writesAfterPolls_succ_poll]
        cases hm : stopAt - (p + 1) with
        | zero =>
          rw [writesAfterPolls_zero]
          simp only [countWrites]
          rw [drainAux_stop_writes stopAt fuel (p + 1) (b - chunkBytes)
            (by omega)]
        | succ m =>
          rw [writesAfterPolls_succ_write, ← hm]
          exact ih (p + 1) (b - chunkBytes)

theorem flushAux_writesAfter (stopAt : ℕ) :
    ∀ (fuel p b : ℕ),
      writesAfterPolls (stopAt - p) (flushAux stopAt fuel p b).1 ≤ 1 := by
  intro fuel
  induction fuel with
  | zero => intro p b; simp [flushAux, writesAfterPolls_nil]
  | succ fuel ih =>
    intro p b
    rw [flushAux]
    by_cases h1 : b = 0
    · simp [h1, writesAfterPolls_nil]
    · by_cases h2 : stopAt ≤ p
      · have : stopAt - p = 0 := by omega
        simp [h1, h2, this, writesAfterPolls_zero, countWrites]
      · simp only [if_neg h1, if_neg h2]
        have hsp : stopAt - p = (stopAt - (p + 1)) + 1 := by omega
        rw [hsp, writesAfterPolls_succ_poll]
        cases hm : stopAt - (p + 1) with
        | zero =>
          rw [writesAfterPolls_zero]
          simp only [countWrites]
          rw [flushAux_stop_writes stopAt fuel (p + 1) (b - min b chunkBytes)
            (by omega)]
        | succ m =>
          rw [writesAfterPolls_succ_write, ← hm]
          exact ih (p + 1) (b - min b chunkBytes)

theorem processChunks_writesAfter (stopAt prebuf : ℕ) :
    ∀ (cs : List ℕ) (p b : ℕ) (st : Bool),
      writesAfterPolls (stopAt - p)
        (processChunks stopAt prebuf cs p b st).trace ≤ 1 := by
  intro cs
  induction cs with
  | nil => intro p b st; simp [processChunks, writesAfterPolls_nil]
  | cons c cs ih =>
    intro p b st
    simp only [processChunks]
    by_cases h1 : stopAt ≤ p
    · have : stopAt - p = 0 := by omega
      simp [h1, this, writesAfterPolls_zero, countWrites]
    · simp only [if_neg h1]
      have hsp : stopAt - p = (stopAt - (p + 1)) + 1 := by omega
      by_cases h2 : c = 0
      · simp only [if_pos h2]
        rw [hsp, writesAfterPolls_succ_poll]
        exact ih (p + 1) b st
      · simp only [if_neg h2]
        by_cases h3 : (!st && decide (b + c < prebuf)) = true
        · simp only [if_pos h3]
          have := ih (p + 1) (b + c) st
          rw [hsp, writesAfterPolls_succ_poll]
          exact this
        · simp only [if_neg h3, drain_def]
          rw [hsp, writesAfterPolls_succ_poll]
          set dt := (drainAux stopAt (b + c) (p + 1) (b + c)).1 with hdt
          have hdp := drainAux_polls stopAt (b + c) (p + 1) (b + c)
          by_cases h4 : stopAt - (p + 1) ≤ pollCount dt
          · rw [writesAfterPolls_append_le dt _ _ h4]
            have hw := drainAux_writesAfter stopAt (b + c) (p + 1) (b + c)
            rw [← hdt] at hw
            have hz : countWrites
                (processChunks stopAt prebuf cs
                  (drainAux stopAt (b + c) (p + 1) (b + c)).2.1
                  (drainAux stopAt (b + c) (p + 1) (b + c)).2.2 true).trace
                = 0 := by
              apply processChunks_stop_writes
              rw [hdp, ← hdt]
              omega
            rw [hz]
            omega
          · rw [writesAfterPolls_append_gt dt _ _ (by omega)]
            have := ih (drainAux stopAt (b + c) (p + 1) (b + c)).2.1
              (drainAux stopAt (b + c) (p + 1) (b + c)).2.2 true
            rw [hdp, ← hdt] at this ⊢
            have harith : stopAt - (p + 1) - pollCount dt
                = stopAt - (p + 1 + pollCount dt) := by omega
            rw [harith]
            exact this

end Playback

/-- C7: for every chunk sequence, prebuffer setting, deadline behaviour and
point `stopAt` in the poll schedule at which the stop flag becomes set
during playback, at most one further device write is issued after the flag
is set: every write is guarded by a poll, so at most the single write whose
guarding poll preceded the flag can still go out. -/
theorem C7_stop_bounds_writes_after_flag (chunks : List ℕ)
    (prebuf stopAt : ℕ) (raises : Bool) :
    Playback.writesAfterPolls stopAt
      (Playback.streaming_speak chunks prebuf stopAt raises).trace ≤ 1 := by
  unfold Playback.streaming_speak
  have hmain := Playback.processChunks_writesAfter stopAt prebuf chunks 0 0 false
  rw [Nat.sub_zero] at hmain
  by_cases hca : ((Playback.processChunks stopAt prebuf chunks 0 0
      false).consumedAll && raises) = true
  · simp only [hca, if_pos]
    exact hmain
  · simp only [hca, Bool.false_eq_true, if_neg, not_false_eq_true]
    have hpolls := Playback.processChunks_polls stopAt prebuf chunks 0 0 false
    rw [Nat.zero_add] at hpolls
    set mt := (Playback.processChunks stopAt prebuf chunks 0 0 false).trace
      with hmt
    have hfl : Playback.flushLoop stopAt
        (Playback.processChunks stopAt prebuf chunks 0 0 false).polls
        (Playback.processChunks stopAt prebuf chunks 0 0 false).buf =
        Playback.flushAux stopAt
          (Playback.processChunks stopAt prebuf chunks 0 0 false).buf
          (Playback.pollCount mt)
          (Playback.processChunks stopAt prebuf chunks 0 0 false).buf := by
      unfold Playback.flushLoop
      rw [hpolls]
    rw [hfl]
    by_cases h4 : stopAt ≤ Playback.pollCount mt
    · rw [Playback.writesAfterPolls_append_le mt _ _ h4]
      rw [Playback.flushAux_stop_writes stopAt _ _ _ h4]
      omega
    · rw [Playback.writesAfterPolls_append_gt mt _ _ (by omega)]
      exact Playback.flushAux_writesAfter stopAt _ (Playback.pollCount mt) _

/-! ### C4 (amended): final-poll characterisation of the deadline watcher -/

namespace Warn

theorem isSetAt_mono (a : Option ℚ) {t t' : ℚ} (h : t ≤ t')
    (hs : isSetAt a t = true) : isSetAt a t' = true := by
  cases a with
  | none => simp [isSetAt] at hs
  | some x =>
    simp only [isSetAt, decide_eq_true_eq] at hs ⊢
    exact le_trans hs h

theorem lt_finalPollIndex_iff (k : ℕ) (delay : ℚ) :
    k < finalPollIndex delay ↔ (k : ℤ) * delay.den < delay.num * 20 := by
  unfold finalPollIndex
  have hd : 0 < delay.den := delay.pos
  rw [Nat.lt_iff_add_one_le, Nat.le_div_iff_mul_le hd, Nat.succ_mul]
  have hcast : (k : ℤ) * (delay.den : ℤ) = ((k * delay.den : ℕ) : ℤ) := by
    push_cast; ring
  rw [hcast]
  omega

theorem mkRat_lt_delay_iff (k : ℕ) (delay : ℚ) :
    (mkRat (k : ℤ) 20 < delay) ↔ k < finalPollIndex delay := by
  rw [lt_finalPollIndex_iff]
  have hd : (0 : ℚ) < (delay.den : ℚ) := by exact_mod_cast delay.pos
  have hmd : delay * (delay.den : ℚ) = (delay.num : ℚ) := by
    nth_rewrite 1 [← Rat.num_div_den delay]
    exact div_mul_cancel₀ _ (ne_of_gt hd)
  rw [Rat.mkRat_eq_div]
  push_cast
  rw [div_lt_iff (by norm_num : (0 : ℚ) < 20)]
  constructor
  · intro h
    have h2 : (k : ℚ) * (delay.den : ℚ) <
        (delay.num : ℚ) * 20 := by
      calc (k : ℚ) * (delay.den : ℚ)
          < delay * 20 * (delay.den : ℚ) := by
            exact (mul_lt_mul_right hd).2 h
        _ = (delay.num : ℚ) * 20 := by
            rw [mul_right_comm, hmd]
    exact_mod_cast h2
  · intro h
    have h2 : (k : ℚ) * (delay.den : ℚ) <
        ((delay.num * 20 : ℤ) : ℚ) := by exact_mod_cast h
    have h3 : (k : ℚ) * (delay.den : ℚ) <
        delay * 20 * (delay.den : ℚ) := by
      rw [mul_right_comm, hmd]
      push_cast at h2 ⊢
      exact h2
    exact (mul_lt_mul_right hd).1 h3

theorem mkRat_nat_mono {j k : ℕ} (h : j ≤ k) :
    (mkRat (j : ℤ) 20 : ℚ) ≤ mkRat (k : ℤ) 20 := by
  rw [Rat.mkRat_eq_div, Rat.mkRat_eq_div]
  push_cast
  have hq : (j : ℚ) ≤ (k : ℚ) := by exact_mod_cast h
  gcongr

/-- The worker's loop, run with sufficient fuel from any poll index not past
the final one, emits exactly one alert iff both flags are still clear at the
final poll time. -/
theorem warnFromFuel_spec (delay : ℚ) (cancelAt stopAt : Option ℚ) :
    ∀ (fuel k : ℕ), k ≤ finalPollIndex delay →
      finalPollIndex delay - k < fuel →
      warnFromFuel delay cancelAt stopAt fuel k =
        if !isSetAt stopAt (mkRat (finalPollIndex delay) 20) &&
            !isSetAt cancelAt (mkRat (finalPollIndex delay) 20)
        then 1 else 0 := by
  intro fuel
  induction fuel with
  | zero => intro k _ h2; omega
  | succ fuel ih =>
    intro k hk hfuel
    rw [warnFromFuel]
    by_cases hkn : k = finalPollIndex delay
    · subst hkn
      have hnotlt : decide (mkRat (finalPollIndex delay : ℤ) 20 < delay)
          = false := by
        simp only [decide_eq_false_iff_not]
        rw [mkRat_lt_delay_iff]
        omega
      rw [hnotlt]
      simp only [Bool.false_and]
      rw [if_neg (by simp)]
    · have hklt : k < finalPollIndex delay := by omega
      have hlt : decide (mkRat (k : ℤ) 20 < delay) = true := by
        simp only [decide_eq_true_eq]
        rw [mkRat_lt_delay_iff]
        exact hklt
      rw [hlt]
      simp only [Bool.true_and]
      cases hB : (!isSetAt stopAt (mkRat (k : ℤ) 20) &&
          !isSetAt cancelAt (mkRat (k : ℤ) 20)) with
      | true =>
        simp only [hB, if_true]
        exact ih (k + 1) (by omega) (by omega)
      | false =>
        have hset : isSetAt stopAt (mkRat (k : ℤ) 20) = true ∨
            isSetAt cancelAt (mkRat (k : ℤ) 20) = true := by
          by_contra hcon
          push_neg at hcon
          obtain ⟨h1, h2⟩ := hcon
          simp only [Bool.not_eq_true] at h1 h2
          simp [h1, h2] at hB
        have hsetFinal :
            (!isSetAt stopAt (mkRat (finalPollIndex delay : ℤ) 20) &&
              !isSetAt cancelAt (mkRat (finalPollIndex delay : ℤ) 20))
              = false := by
          have hmono := mkRat_nat_mono (le_of_lt hklt)
          rcases hset with h | h
          · have := isSetAt_mono stopAt hmono h
            simp [this]
          · have := isSetAt_mono cancelAt hmono h
            simp [this]
        simp only [hB, hsetFinal, Bool.false_eq_true, if_false]

end Warn

/-- C4 (amended): the deadline watcher emits its alert exactly once iff
neither the cancel token nor the global stop flag is set at the time of its
final poll, which happens at the first multiple of the 0.05 s polling step
that is `≥ delay`; it emits zero alerts otherwise (so a flag set after the
delay elapsed but at or before that grid point still suppresses the alert,
and the alert is never emitted more than once). -/
theorem C4_amended_final_poll_characterisation (delay : ℚ)
    (cancelAt stopAt : Option ℚ) :
    Warn.warn_after delay cancelAt stopAt =
      if !Warn.isSetAt stopAt (mkRat (Warn.finalPollIndex delay : ℤ) 20) &&
          !Warn.isSetAt cancelAt (mkRat (Warn.finalPollIndex delay : ℤ) 20)
      then 1 else 0 := by
  unfold Warn.warn_after Warn.warnFuel
  exact Warn.warnFromFuel_spec delay cancelAt stopAt
    (Warn.finalPollIndex delay + 1) 0 (by omega) (by omega)

/-! ### C6 (amended): cumulative no-speech streak -/

theorem succ_mod_of_ne (E m : ℕ) (hm : 1 ≤ m) (h : E % m ≠ m - 1) :
    (E + 1) % m = E % m + 1 := by
  have h1 : E % m < m := Nat.mod_lt _ hm
  have h2 : E % m + 1 < m := by omega
  conv_lhs => rw [← Nat.div_add_mod E m, Nat.add_assoc]
  rw [Nat.mul_add_mod]
  exact Nat.mod_eq_of_lt h2

theorem succ_mod_of_eq (E m : ℕ) (hm : 1 ≤ m) (h : E % m = m - 1) :
    (E + 1) % m = 0 := by
  conv_lhs => rw [← Nat.div_add_mod E m, Nat.add_assoc]
  rw [h, show m - 1 + 1 = m from by omega, Nat.mul_add_mod, Nat.mod_self]

/-- With exit-on-no-mic disabled, the streak slice of the main loop fires
its alert exactly at those iterations whose empty capture brings the
cumulative empty count to a multiple of the limit, and never exits. -/
theorem streakRun_spec (maxR : ℕ) (hmax : 1 ≤ maxR) (outcomes : List Bool) :
    ∀ (rest : List Bool) (k : ℕ) (fm : Bool) (streak : ℕ),
      rest = outcomes.drop k →
      streak = ((outcomes.take k).filter (fun o => !o)).length % maxR →
      (MainLoop.streakRun maxR false rest fm streak k).alerts =
        (List.range' k (outcomes.length - k)).filter (fun i =>
          !(outcomes.getD i true) &&
          decide (MainLoop.emptiesUpTo outcomes i % maxR = 0)) ∧
      (MainLoop.streakRun maxR false rest fm streak k).exitedAt = none := by
  intro rest
  induction rest with
  | nil =>
    intro k fm streak hrest _
    have hk : outcomes.length ≤ k := List.drop_eq_nil_iff.1 hrest.symm
    have hlen : outcomes.length - k = 0 := by omega
    rw [hlen]
    simp [MainLoop.streakRun]
  | cons ok rest' ih =>
    intro k fm streak hrest hstreak
    have hk : k < outcomes.length := by
      by_contra hcon
      push_neg at hcon
      rw [List.drop_eq_nil_iff.2 hcon] at hrest
      exact List.cons_ne_nil ok rest' hrest
    have hcons := List.drop_eq_getElem_cons hk
    rw [← hrest] at hcons
    injection hcons with hok' hrest''
    have hok : outcomes[k] = ok := hok'.symm
    have hrest' : rest' = outcomes.drop (k + 1) := hrest''
    have hgetD : outcomes.getD k true = ok := by
      rw [List.getD_eq_getElem outcomes true hk, hok]
    have hE1 : ((outcomes.take (k + 1)).filter (fun o => !o)).length =
        ((outcomes.take k).filter (fun o => !o)).length +
          (if ok then 0 else 1) := by
      rw [List.take_succ, List.filter_append, List.length_append,
        List.getElem?_eq_getElem hk, hok]
      cases ok <;> simp
    have hlen : outcomes.length - k = (outcomes.length - (k + 1)) + 1 := by
      omega
    rw [hlen, List.range'_succ, List.filter_cons]
    cases ok with
    | true =>
      simp only [MainLoop.streakRun]
      have := ih (k + 1) false streak hrest'
        (by rw [hstreak, hE1]; simp)
      rw [hgetD]
      simpa using this
    | false =>
      simp only [MainLoop.streakRun, Bool.and_false, Bool.false_eq_true,
        if_false]
      have hmod : streak < maxR := by
        rw [hstreak]; exact Nat.mod_lt _ hmax
      have hEup : MainLoop.emptiesUpTo outcomes k % maxR =
          (((outcomes.take k).filter (fun o => !o)).length + 1) % maxR := by
        unfold MainLoop.emptiesUpTo
        rw [hE1]
        simp
      by_cases halert : maxR ≤ streak + 1
      · have heq : ((outcomes.take k).filter (fun o => !o)).length % maxR
            = maxR - 1 := by omega
        have hz : (((outcomes.take k).filter (fun o => !o)).length + 1)
            % maxR = 0 := succ_mod_of_eq _ maxR hmax heq
        rw [if_pos halert]
        have := ih (k + 1) fm 0 hrest'
          (by rw [hE1]; simp [hz])
        rw [hgetD]
        constructor
        · simp only [MainLoop.streakRun] at this ⊢
          rw [if_pos (by rw [hEup, hz]; simp)]
          rw [this.1]
        · simp only [MainLoop.streakRun] at this ⊢
          exact this.2
      · have hne : ((outcomes.take k).filter (fun o => !o)).length % maxR
            ≠ maxR - 1 := by omega
        have hs1 : (((outcomes.take k).filter (fun o => !o)).length + 1)
            % maxR = streak + 1 := by
          rw [succ_mod_of_ne _ maxR hmax hne, hstreak]
        rw [if_neg halert]
        have := ih (k + 1) fm (streak + 1) hrest'
          (by rw [hE1]; simp [hs1])
        rw [hgetD]
        constructor
        · rw [if_neg (by rw [hEup, hs1]; simp)]
          exact this.1
        · exact this.2

/-- C6 (amended): with exit-on-no-mic disabled, the "Please speak a little
louder." alert fires exactly on those iterations whose empty capture makes
the cumulative number of empty captures a multiple of the configured limit
(default 3); successful captures do not reset the count. -/
theorem C6_amended_cumulative_streak (maxR : ℕ) (outcomes : List Bool)
    (hmax : 1 ≤ maxR) :
    (MainLoop.main_no_speech maxR false outcomes).alerts =
      (List.range outcomes.length).filter (fun k =>
        !(outcomes.getD k true) &&
        decide (MainLoop.emptiesUpTo outcomes k % maxR = 0)) ∧
    (MainLoop.main_no_speech maxR false outcomes).exitedAt = none := by
  have h := streakRun_spec maxR hmax outcomes outcomes 0 true 0 (by simp)
    (by simp)
  unfold MainLoop.main_no_speech
  rw [List.range_eq_range']
  simpa using h

/-- Witness for `C6_amended_cumulative_streak`: four consecutive empty
captures with limit 3 alert exactly at iteration 2. -/
theorem C6_amended_witness :
    (MainLoop.main_no_speech 3 false [false, false, false, false]).alerts =
      (List.range ([false, false, false, false] : List Bool).length).filter
        (fun k => !(([false, false, false, false] : List Bool).getD k true) &&
          decide (MainLoop.emptiesUpTo [false, false, false, false] k % 3
            = 0)) ∧
    (MainLoop.main_no_speech 3 false [false, false, false, false]).exitedAt
      = none :=
  C6_amended_cumulative_streak 3 [false, false, false, false] (by decide)

/-! ### C5: network monitor -/

namespace NetMon

theorem mem_range'_one {m s n : ℕ} :
    m ∈ List.range' s n ↔ s ≤ m ∧ m < s + n := by
  rw [List.mem_range']
  constructor
  · rintro ⟨i, hi, rfl⟩; omega
  · rintro ⟨h1, h2⟩; exact ⟨m - s, by omega, by omega⟩

theorem runStart_le (probes : List Bool) : ∀ t, runStart probes t ≤ t := by
  intro t
  induction t with
  | zero => simp [runStart]
  | succ t ih =>
    rw [runStart]
    split
    · omega
    · omega

theorem runStart_false_between (probes : List Bool) :
    ∀ t i, runStart probes t ≤ i → i < t → probeAt probes i = false := by
  intro t
  induction t with
  | zero => intro i h1 h2; omega
  | succ t ih =>
    intro i h1 h2
    rw [runStart] at h1
    by_cases hp : probeAt probes t = true
    · rw [if_pos hp] at h1; omega
    · rw [if_neg hp] at h1
      rcases Nat.lt_succ_iff_lt_or_eq.1 h2 with h | h
      · exact ih i h1 h
      · subst h; simpa using hp

theorem runStart_zero_or_true (probes : List Bool) :
    ∀ t, runStart probes t = 0 ∨
      (1 ≤ runStart probes t ∧
        probeAt probes (runStart probes t - 1) = true) := by
  intro t
  induction t with
  | zero => left; rfl
  | succ t ih =>
    rw [runStart]
    by_cases hp : probeAt probes t = true
    · right
      rw [if_pos hp]
      exact ⟨by omega, by simpa using hp⟩
    · rw [if_neg hp]
      exact ih

theorem netStep_spec (T : ℕ) (hT : 1 ≤ T) (probes : List Bool) (k : ℕ)
    (hk : k < probes.length) :
    netStep T ⟨lastSpec probes k, osSpec T probes k⟩ (probeAt probes k) k =
      (⟨lastSpec probes (k + 1), osSpec T probes (k + 1)⟩,
        (if backSpec probes k then [NetAlert.backOnline] else []) ++
          (if offlineSpec T probes k then [NetAlert.offline] else [])) := by
  have hT0 : 0 < T := hT
  cases k with
  | zero =>
    have hback : backSpec probes 0 = false := by simp [backSpec]
    have hoff : offlineSpec T probes 0 = false := by
      simp [offlineSpec]
      omega
    rw [hback, hoff]
    cases hp0 : probeAt probes 0 with
    | true => simp [netStep, lastSpec, osSpec, hp0]
    | false => simp [netStep, lastSpec, osSpec, runStart, hp0, hT0]
  | succ j =>
    have hlast : lastSpec probes (j + 1) = some (probeAt probes j) := by
      simp [lastSpec]
    cases hpk : probeAt probes (j + 1) with
    | true =>
      have hoff : offlineSpec T probes (j + 1) = false := by
        by_cases hTk : T ≤ j + 1
        · have hmem : j + 1 ∈ List.range' (j + 1 - T) (T + 1) :=
            mem_range'_one.2 (by omega)
          have hall : (List.range' (j + 1 - T) (T + 1)).all
              (fun i => !probeAt probes i) = false :=
            List.all_eq_false.2 ⟨j + 1, hmem, by simp [hpk]⟩
          simp [offlineSpec, hall]
        · simp [offlineSpec, hTk]
      cases hpj : probeAt probes j with
      | false =>
        have hback : backSpec probes (j + 1) = true := by
          simp [backSpec, hpk, hpj, hk]
        rw [hback, hoff]
        simp [netStep, hlast, hpj, lastSpec, osSpec, hpk]
      | true =>
        have hback : backSpec probes (j + 1) = false := by
          simp [backSpec, hpj]
        rw [hback, hoff]
        simp [netStep, hlast, hpj, lastSpec, osSpec, hpk]
    | false =>
      have hback : backSpec probes (j + 1) = false := by
        simp [backSpec, hpk]
      rw [hback]
      cases hpj : probeAt probes j with
      | true =>
        have hoff : offlineSpec T probes (j + 1) = false := by
          have hmem : j ∈ List.range' (j + 1 - T) (T + 1) :=
            mem_range'_one.2 (by omega)
          have hall : (List.range' (j + 1 - T) (T + 1)).all
              (fun i => !probeAt probes i) = false :=
            List.all_eq_false.2 ⟨j, hmem, by simp [hpj]⟩
          simp [offlineSpec, hall]
        rw [hoff]
        have hrs : runStart probes (j + 1) = j + 1 := by
          rw [runStart, if_pos hpj]
        simp [netStep, osSpec, lastSpec, hpk, hpj, hrs, hT0]
        omega
      | false =>
        have hrs : runStart probes (j + 1) = runStart probes j := by
          rw [runStart, if_neg (by simp [hpj])]
        have hj0le : runStart probes j ≤ j := runStart_le probes j
        by_cases hD : j - runStart probes j < T
        · by_cases hann : T ≤ j + 1 - runStart probes j
          · have hkT : j + 1 - T = runStart probes j := by omega
            have hoff : offlineSpec T probes (j + 1) = true := by
              have hall : (List.range' (j + 1 - T) (T + 1)).all
                  (fun i => !probeAt probes i) = true := by
                rw [List.all_eq_true]
                intro x hx
                rcases mem_range'_one.1 hx with ⟨hx1, hx2⟩
                rcases Nat.lt_or_ge x j with hxj | hxj
                · simp [runStart_false_between probes j x (by omega) hxj]
                · rcases Nat.eq_or_lt_of_le hxj with h | h
                  · simp [← h, hpj]
                  · have hx3 : x = j + 1 := by omega
                    simp [hx3, hpk]
              have hbd : (decide (j + 1 - T = 0) ||
                  probeAt probes (j + 1 - T - 1)) = true := by
                rcases runStart_zero_or_true probes j with h | ⟨h1, h2⟩
                · simp [hkT, h]
                · rw [hkT]
                  simp [h2]
              have hTk : T ≤ j + 1 := by omega
              simp [offlineSpec, hk, hall, hbd, hTk]
            rw [hoff]
            have hnot : ¬ (j + 1 - runStart probes j < T) := by omega
            simp [netStep, osSpec, lastSpec, hpk, hpj, hrs, hD, hann, hnot]
          · have hoff : offlineSpec T probes (j + 1) = false := by
              by_cases hTk : T ≤ j + 1
              · have hj1 : 1 ≤ runStart probes j := by omega
                have hpj0 : probeAt probes (runStart probes j - 1)
                    = true := by
                  rcases runStart_zero_or_true probes j with h | ⟨_, h⟩
                  · exact absurd h (by omega)
                  · exact h
                have hmem : runStart probes j - 1 ∈
                    List.range' (j + 1 - T) (T + 1) :=
                  mem_range'_one.2 (by omega)
                have hall : (List.range' (j + 1 - T) (T + 1)).all
                    (fun i => !probeAt probes i) = false :=
                  List.all_eq_false.2
                    ⟨runStart probes j - 1, hmem, by simp [hpj0]⟩
                simp [offlineSpec, hall]
              · simp [offlineSpec, hTk]
            rw [hoff]
            have hlt : j + 1 - runStart probes j < T := by omega
            simp [netStep, osSpec, lastSpec, hpk, hpj, hrs, hD, hann, hlt]
        · have hoff : offlineSpec T probes (j + 1) = false := by
            by_cases hTk : T ≤ j + 1
            · have hx : probeAt probes (j + 1 - T - 1) = false := by
                apply runStart_false_between probes j
                · omega
                · omega
              have hne : ¬ (j + 1 - T = 0) := by omega
              simp [offlineSpec, hx, hne]
            · simp [offlineSpec, hTk]
          rw [hoff]
          have hnot : ¬ (j + 1 - runStart probes j < T) := by omega
          simp [netStep, osSpec, lastSpec, hpk, hpj, hrs, hD, hnot]

theorem netRunAux_spec (T : ℕ) (hT : 1 ≤ T) (probes : List Bool) :
    ∀ (rest : List Bool) (k : ℕ),
      rest = probes.drop k →
      netRunAux T rest ⟨lastSpec probes k, osSpec T probes k⟩ k =
        (List.range' k (probes.length - k)).flatMap (fun i =>
          (if backSpec probes i then [(i, NetAlert.backOnline)] else []) ++
            (if offlineSpec T probes i then [(i, NetAlert.offline)]
              else [])) := by
  intro rest
  induction rest with
  | nil =>
    intro k hrest
    have hk : probes.length ≤ k := List.drop_eq_nil_iff.1 hrest.symm
    rw [show probes.length - k = 0 from by omega]
    simp [netRunAux]
  | cons o rest' ih =>
    intro k hrest
    have hk : k < probes.length := by
      by_contra hcon
      push_neg at hcon
      rw [List.drop_eq_nil_iff.2 hcon] at hrest
      exact List.cons_ne_nil o rest' hrest
    have hcons := List.drop_eq_getElem_cons hk
    rw [← hrest] at hcons
    injection hcons with ho hrest'
    have hoP : probeAt probes k = o := by
      rw [probeAt, List.getD_eq_getElem probes false hk, ho]
    rw [show probes.length - k = (probes.length - (k + 1)) + 1 from by omega,
      List.range'_succ, List.flatMap_cons]
    simp only [netRunAux]
    rw [← hoP, netStep_spec T hT probes k hk]
    have hmap : ((if backSpec probes k then [NetAlert.backOnline] else []) ++
        (if offlineSpec T probes k then [NetAlert.offline] else [])).map
          (fun a => (k, a)) =
        (if backSpec probes k then [(k, NetAlert.backOnline)] else []) ++
          (if offlineSpec T probes k then [(k, NetAlert.offline)]
            else []) := by
      cases backSpec probes k <;> cases offlineSpec T probes k <;> simp
    simp only []
    rw [hmap, ih (k + 1) hrest']

theorem network_monitor_eq_spec (T : ℕ) (hT : 1 ≤ T) (probes : List Bool) :
    network_monitor T probes = alertsSpec T probes := by
  have h := netRunAux_spec T hT probes probes 0 (by simp)
  unfold network_monitor alertsSpec
  rw [List.range_eq_range']
  simpa [lastSpec, osSpec] using h

end NetMon

namespace NetMon

theorem mem_alertsSpec_iff (T : ℕ) (probes : List Bool) (k : ℕ)
    (a : NetAlert) :
    (k, a) ∈ alertsSpec T probes ↔
      (a = NetAlert.backOnline ∧ backSpec probes k = true) ∨
      (a = NetAlert.offline ∧ offlineSpec T probes k = true) := by
  unfold alertsSpec
  rw [List.mem_flatMap]
  constructor
  · rintro ⟨i, _, hmem⟩
    rw [List.mem_append] at hmem
    rcases hmem with h | h
    · by_cases hb : backSpec probes i = true
      · rw [if_pos hb] at h
        simp only [List.mem_singleton, Prod.mk.injEq] at h
        obtain ⟨rfl, rfl⟩ := h
        exact Or.inl ⟨rfl, hb⟩
      · rw [if_neg hb] at h
        simp at h
    · by_cases hb : offlineSpec T probes i = true
      · rw [if_pos hb] at h
        simp only [List.mem_singleton, Prod.mk.injEq] at h
        obtain ⟨rfl, rfl⟩ := h
        exact Or.inr ⟨rfl, hb⟩
      · rw [if_neg hb] at h
        simp at h
  · rintro (⟨rfl, hb⟩ | ⟨rfl, hb⟩)
    · have hklen : k < probes.length := by
        have := hb
        simp only [backSpec, Bool.and_eq_true, decide_eq_true_eq] at this
        exact this.1.1.2
      exact ⟨k, by rw [List.mem_range]; exact hklen,
        by rw [List.mem_append, if_pos hb]; left; simp⟩
    · have hklen : k < probes.length := by
        have := hb
        simp only [offlineSpec, Bool.and_eq_true, decide_eq_true_eq] at this
        exact this.1.1.1
      exact ⟨k, by rw [List.mem_range]; exact hklen,
        by rw [List.mem_append, if_pos hb]; right; simp⟩

theorem count_flatMap_range (block : ℕ → List (ℕ × NetAlert))
    (hblock : ∀ i x, x ∈ block i → x.1 = i) :
    ∀ (n k : ℕ) (a : NetAlert),
      ((List.range n).flatMap block).count (k, a) =
        if k < n then (block k).count (k, a) else 0 := by
  intro n
  induction n with
  | zero => intro k a; simp
  | succ n ih =>
    intro k a
    rw [List.range_succ, List.flatMap_append, List.count_append]
    simp only [List.flatMap_cons, List.flatMap_nil, List.append_nil]
    rw [ih k a]
    by_cases hk : k = n
    · subst hk
      rw [if_neg (by omega), if_pos (by omega)]
      omega
    · have hcount : (block n).count (k, a) = 0 := by
        rw [List.count_eq_zero]
        intro hmem
        exact hk (hblock n _ hmem)
      rw [hcount]
      by_cases hk2 : k < n
      · rw [if_pos hk2, if_pos (by omega)]
        omega
      · rw [if_neg hk2, if_neg (by omega)]

theorem alertsSpec_block_tag (T : ℕ) (probes : List Bool) :
    ∀ (i : ℕ) (x : ℕ × NetAlert),
      x ∈ ((if backSpec probes i then [(i, NetAlert.backOnline)] else []) ++
        (if offlineSpec T probes i then [(i, NetAlert.offline)] else [])) →
      x.1 = i := by
  intro i x hx
  rw [List.mem_append] at hx
  rcases hx with h | h
  · split at h
    · simp only [List.mem_singleton] at h
      rw [h]
    · simp at h
  · split at h
    · simp only [List.mem_singleton] at h
      rw [h]
    · simp at h

end NetMon

/-- C5: over any probe schedule and announce threshold `T ≥ 1`, the network
monitor (a) emits an offline alert at tick `k` only when all probes from
`k - T` through `k` failed, i.e. the outage persisted for at least the
announce threshold (in particular never on a single failed probe); (b)
emits at most one offline alert per contiguous outage: two offline alerts
are always separated by a successful probe; and (c) emits exactly one
back-online alert at each offline-to-online recovery edge and nowhere
else. -/
theorem C5_network_monitor_debounce (T : ℕ) (probes : List Bool)
    (hT : 1 ≤ T) :
    (∀ k, (k, NetMon.NetAlert.offline) ∈ NetMon.network_monitor T probes →
        T ≤ k ∧ ∀ i, k - T ≤ i → i ≤ k → NetMon.probeAt probes i = false) ∧
    (∀ k₁ k₂, k₁ < k₂ →
        (k₁, NetMon.NetAlert.offline) ∈ NetMon.network_monitor T probes →
        (k₂, NetMon.NetAlert.offline) ∈ NetMon.network_monitor T probes →
        ∃ i, k₁ < i ∧ i < k₂ ∧ NetMon.probeAt probes i = true) ∧
    (∀ k, (NetMon.network_monitor T probes).count
        (k, NetMon.NetAlert.backOnline) =
      if 1 ≤ k ∧ k < probes.length ∧ NetMon.probeAt probes k = true ∧
          NetMon.probeAt probes (k - 1) = false
      then 1 else 0) := by
  have heq := NetMon.network_monitor_eq_spec T hT probes
  have hoffchar : ∀ k,
      (k, NetMon.NetAlert.offline) ∈ NetMon.network_monitor T probes ↔
      NetMon.offlineSpec T probes k = true := by
    intro k
    rw [heq, NetMon.mem_alertsSpec_iff]
    simp
  have hoffprops : ∀ k, NetMon.offlineSpec T probes k = true →
      T ≤ k ∧ ∀ i, k - T ≤ i → i ≤ k → NetMon.probeAt probes i = false := by
    intro k hk
    simp only [NetMon.offlineSpec, Bool.and_eq_true, decide_eq_true_eq,
      List.all_eq_true, Bool.or_eq_true] at hk
    obtain ⟨⟨⟨hlen, hTk⟩, hall⟩, _⟩ := hk
    refine ⟨hTk, fun i h1 h2 => ?_⟩
    have hmem : i ∈ List.range' (k - T) (T + 1) :=
      NetMon.mem_range'_one.2 ⟨h1, by omega⟩
    have := hall i hmem
    simpa using this
  refine ⟨fun k hmem => hoffprops k ((hoffchar k).1 hmem), ?_, ?_⟩
  · intro k1 k2 hlt h1 h2
    have hs1 := (hoffchar k1).1 h1
    have hs2 := (hoffchar k2).1 h2
    have hp1 := hoffprops k1 hs1
    have hp2 := hoffprops k2 hs2
    by_contra hcon
    push_neg at hcon
    have hallfalse : ∀ i, k1 < i → i < k2 →
        NetMon.probeAt probes i = false := by
      intro i ha hb
      have := hcon i ha hb
      cases hpi : NetMon.probeAt probes i
      · rfl
      · exact absurd hpi this
    simp only [NetMon.offlineSpec, Bool.and_eq_true, decide_eq_true_eq,
      List.all_eq_true, Bool.or_eq_true] at hs2
    obtain ⟨⟨⟨hlen2, hT2⟩, hall2⟩, hbd2⟩ := hs2
    rcases hbd2 with hz | hpt
    · omega
    · set x := k2 - T - 1 with hx
      have hxlt : x < k2 := by omega
      have hxge : k1 - T ≤ x := by omega
      by_cases hxk1 : x ≤ k1
      · have := hp1.2 x hxge hxk1
        rw [this] at hpt
        exact Bool.false_ne_true hpt
      · have := hallfalse x (by omega) hxlt
        rw [this] at hpt
        exact Bool.false_ne_true hpt
  · intro k
    rw [heq]
    unfold NetMon.alertsSpec
    rw [NetMon.count_flatMap_range _ (NetMon.alertsSpec_block_tag T probes)
      probes.length k NetMon.NetAlert.backOnline]
    have hcnt : ((if NetMon.backSpec probes k
          then [(k, NetMon.NetAlert.backOnline)] else []) ++
        (if NetMon.offlineSpec T probes k
          then [(k, NetMon.NetAlert.offline)] else [])).count
          (k, NetMon.NetAlert.backOnline) =
        if NetMon.backSpec probes k then 1 else 0 := by
      cases hb : NetMon.backSpec probes k <;>
        cases ho : NetMon.offlineSpec T probes k <;>
        simp [List.count_cons, List.count_append]
    rw [hcnt]
    by_cases hb : NetMon.backSpec probes k = true
    · have hprops := hb
      simp only [NetMon.backSpec, Bool.and_eq_true,
        decide_eq_true_eq] at hprops
      obtain ⟨⟨⟨h1, h2⟩, h3⟩, h4⟩ := hprops
      rw [if_pos h2, hb, if_pos rfl,
        if_pos ⟨h1, h2, h3, by simpa using h4⟩]
    · have hnb : NetMon.backSpec probes k = false := by
        cases hB2 : NetMon.backSpec probes k
        · rfl
        · exact absurd hB2 hb
      rw [hnb]
      have hnot : ¬(1 ≤ k ∧ k < probes.length ∧
          NetMon.probeAt probes k = true ∧
          NetMon.probeAt probes (k - 1) = false) := by
        intro ⟨h1, h2, h3, h4⟩
        have : NetMon.backSpec probes k = true := by
          simp [NetMon.backSpec, h1, h2, h3, h4]
        rw [this] at hnb
        simp at hnb
      rw [if_neg hnot]
      by_cases hk : k < probes.length
      · rw [if_pos hk]
        simp
      · rw [if_neg hk]

/-- Witness for `C5_network_monitor_debounce` on a concrete probe schedule:
online at tick 0, outage over ticks 1-6 (offline alert at tick 6), recovery
at tick 7, second outage over ticks 8-13 (offline alert at tick 13),
recovery at tick 14 (one back-online alert). -/
theorem C5_network_monitor_witness :
    ((5 : ℕ) ≤ 6 ∧
      NetMon.probeAt [true, false, false, false, false, false, false, true,
        false, false, false, false, false, false, true] 3 = false) ∧
    (∃ i, 6 < i ∧ i < 13 ∧
      NetMon.probeAt [true, false, false, false, false, false, false, true,
        false, false, false, false, false, false, true] i = true) ∧
    (NetMon.network_monitor 5 [true, false, false, false, false, false,
        false, true, false, false, false, false, false, false, true]).count
      (14, NetMon.NetAlert.backOnline) = 1 := by
  have h := C5_network_monitor_debounce 5 [true, false, false, false, false,
    false, false, true, false, false, false, false, false, false, true]
    (by decide)
  refine ⟨⟨(h.1 6 (by decide)).1,
    (h.1 6 (by decide)).2 3 (by decide) (by decide)⟩,
    h.2.1 6 13 (by decide) (by decide) (by decide), ?_⟩
  rw [h.2.2 14]
  decide

/-! ### C10: sanitizer idempotence and the text sent to synthesis -/

namespace TTS

theorem collapseWs_cons_nonspace {c : Char} {rest : List Char}
    (hc : pyIsSpace c = false) :
    collapseWs (c :: rest) = c :: collapseWs rest := by
  simp [collapseWs, hc]

theorem collapseWs_cons_space_nil {c : Char} {rest : List Char}
    (hc : pyIsSpace c = true) (hr : collapseWs rest = []) :
    collapseWs (c :: rest) = [c] := by
  simp [collapseWs, hc, hr]

theorem collapseWs_cons_space_space {c d : Char} {rest t : List Char}
    (hc : pyIsSpace c = true) (hr : collapseWs rest = d :: t)
    (hd : pyIsSpace d = true) :
    collapseWs (c :: rest) = ' ' :: t := by
  simp [collapseWs, hc, hr, hd]

theorem collapseWs_cons_space_nonspace {c d : Char} {rest t : List Char}
    (hc : pyIsSpace c = true) (hr : collapseWs rest = d :: t)
    (hd : pyIsSpace d = false) :
    collapseWs (c :: rest) = c :: d :: t := by
  simp [collapseWs, hc, hr, hd]

theorem dropTrailingWs_cons (c : Char) (t : List Char) :
    dropTrailingWs (c :: t) =
      if (dropTrailingWs t).isEmpty && pyIsSpace c then []
      else c :: dropTrailingWs t := rfl

theorem noTwoSpaces_cons_cons {c d : Char} {t : List Char} :
    noTwoSpaces (c :: d :: t) = true ↔
      (pyIsSpace c = false ∨ pyIsSpace d = false) ∧
        noTwoSpaces (d :: t) = true := by
  rw [noTwoSpaces]
  cases hc : pyIsSpace c <;> cases hd : pyIsSpace d <;> simp

theorem noTwoSpaces_tail {c : Char} {t : List Char}
    (h : noTwoSpaces (c :: t) = true) : noTwoSpaces t = true := by
  cases t with
  | nil => rfl
  | cons d u => exact (noTwoSpaces_cons_cons.1 h).2

theorem noTwoSpaces_cons_of {c : Char} {t : List Char}
    (hpair : pyIsSpace c = false ∨ (t.head?.all fun d => !pyIsSpace d))
    (ht : noTwoSpaces t = true) : noTwoSpaces (c :: t) = true := by
  cases t with
  | nil => rfl
  | cons d u =>
    rw [noTwoSpaces_cons_cons]
    refine ⟨?_, ht⟩
    rcases hpair with h | h
    · exact Or.inl h
    · right
      simpa using h

theorem mem_collapseWs {x : Char} :
    ∀ {l : List Char}, x ∈ collapseWs l → x ∈ l ∨ x = ' ' := by
  intro l
  induction l with
  | nil => intro h; simp [collapseWs] at h
  | cons c rest ih =>
    intro h
    by_cases hc : pyIsSpace c = true
    · cases hr : collapseWs rest with
      | nil =>
        rw [collapseWs_cons_space_nil hc hr] at h
        simp only [List.mem_singleton] at h
        exact Or.inl (by rw [h]; exact List.mem_cons_self c rest)
      | cons d t =>
        by_cases hd : pyIsSpace d = true
        · rw [collapseWs_cons_space_space hc hr hd] at h
          rcases List.mem_cons.1 h with h1 | h1
          · exact Or.inr h1
          · rcases ih (by rw [hr]; exact List.mem_cons_of_mem d h1) with
              h2 | h2
            · exact Or.inl (List.mem_cons_of_mem c h2)
            · exact Or.inr h2
        · rw [collapseWs_cons_space_nonspace hc hr
            (by simpa using hd)] at h
          rcases List.mem_cons.1 h with h1 | h1
          · exact Or.inl (by rw [h1]; exact List.mem_cons_self c rest)
          · rcases ih (by rw [hr]; exact h1) with h2 | h2
            · exact Or.inl (List.mem_cons_of_mem c h2)
            · exact Or.inr h2
    · rw [collapseWs_cons_nonspace (by simpa using hc)] at h
      rcases List.mem_cons.1 h with h1 | h1
      · exact Or.inl (by rw [h1]; exact List.mem_cons_self c rest)
      · rcases ih h1 with h2 | h2
        · exact Or.inl (List.mem_cons_of_mem c h2)
        · exact Or.inr h2

theorem collapseWs_noTwo : ∀ (l : List Char),
    noTwoSpaces (collapseWs l) = true := by
  intro l
  induction l with
  | nil => rfl
  | cons c rest ih =>
    by_cases hc : pyIsSpace c = true
    · cases hr : collapseWs rest with
      | nil => rw [collapseWs_cons_space_nil hc hr]; rfl
      | cons d t =>
        rw [hr] at ih
        by_cases hd : pyIsSpace d = true
        · rw [collapseWs_cons_space_space hc hr hd]
          cases t with
          | nil => rfl
          | cons e u =>
            have h1 := (noTwoSpaces_cons_cons.1 ih).1
            have h2 := (noTwoSpaces_cons_cons.1 ih).2
            rw [noTwoSpaces_cons_cons]
            refine ⟨?_, h2⟩
            rcases h1 with h | h
            · rw [hd] at h; exact absurd h (by simp)
            · exact Or.inr h
        · rw [collapseWs_cons_space_nonspace hc hr (by simpa using hd)]
          rw [noTwoSpaces_cons_cons]
          exact ⟨Or.inr (by simpa using hd), ih⟩
    · rw [collapseWs_cons_nonspace (by simpa using hc)]
      cases hr : collapseWs rest with
      | nil => rfl
      | cons d t =>
        rw [hr] at ih
        rw [noTwoSpaces_cons_cons]
        exact ⟨Or.inl (by simpa using hc), ih⟩

theorem collapseWs_id : ∀ (l : List Char), noTwoSpaces l = true →
    collapseWs l = l := by
  intro l
  induction l with
  | nil => intro _; rfl
  | cons c rest ih =>
    intro h
    have hrest := ih (noTwoSpaces_tail h)
    by_cases hc : pyIsSpace c = true
    · cases rest with
      | nil => rw [collapseWs_cons_space_nil hc hrest]
      | cons d t =>
        have h1 := (noTwoSpaces_cons_cons.1 h).1
        have hd : pyIsSpace d = false := by
          rcases h1 with h1 | h1
          · rw [hc] at h1; exact absurd h1 (by simp)
          · exact h1
        rw [collapseWs_cons_space_nonspace hc hrest hd]
    · rw [collapseWs_cons_nonspace (by simpa using hc), hrest]

theorem mem_dropTrailingWs {x : Char} :
    ∀ {l : List Char}, x ∈ dropTrailingWs l → x ∈ l := by
  intro l
  induction l with
  | nil => intro h; simp [dropTrailingWs] at h
  | cons c t ih =>
    intro h
    rw [dropTrailingWs_cons] at h
    split at h
    · simp at h
    · rcases List.mem_cons.1 h with h1 | h1
      · rw [h1]; exact List.mem_cons_self c t
      · exact List.mem_cons_of_mem c (ih h1)

theorem head?_dropTrailingWs : ∀ (l : List Char),
    dropTrailingWs l = [] ∨ (dropTrailingWs l).head? = l.head? := by
  intro l
  cases l with
  | nil => left; rfl
  | cons c t =>
    rw [dropTrailingWs_cons]
    split
    · left; rfl
    · right; rfl

theorem noTwo_dropTrailingWs : ∀ (l : List Char),
    noTwoSpaces l = true → noTwoSpaces (dropTrailingWs l) = true := by
  intro l
  induction l with
  | nil => intro _; rfl
  | cons c t ih =>
    intro h
    have ht := ih (noTwoSpaces_tail h)
    rw [dropTrailingWs_cons]
    split
    · rfl
    · cases t with
      | nil => rfl
      | cons e v =>
        rcases head?_dropTrailingWs (e :: v) with h1 | h1
        · rw [h1]; rfl
        · cases hr : dropTrailingWs (e :: v) with
          | nil => rfl
          | cons d u =>
            rw [hr] at h1 ht
            simp only [List.head?_cons] at h1
            injection h1 with h1
            have hpair := (noTwoSpaces_cons_cons.1 h).1
            rw [noTwoSpaces_cons_cons]
            refine ⟨?_, ht⟩
            rw [h1]
            exact hpair

theorem dropTrailingWs_idem : ∀ (l : List Char),
    dropTrailingWs (dropTrailingWs l) = dropTrailingWs l := by
  intro l
  induction l with
  | nil => rfl
  | cons c t ih =>
    rw [dropTrailingWs_cons]
    split
    · rfl
    · rename_i hcond
      rw [dropTrailingWs_cons, ih, if_neg hcond]

theorem dropWhile_head_false {p : Char → Bool} :
    ∀ {l : List Char} {c : Char} {t : List Char},
      l.dropWhile p = c :: t → p c = false := by
  intro l
  induction l with
  | nil => intro c t h; simp [List.dropWhile] at h
  | cons a u ih =>
    intro c t h
    rw [List.dropWhile_cons] at h
    split at h
    · exact ih h
    · rename_i hcond
      injection h with h1 _
      rw [← h1]
      simpa using hcond

theorem noTwo_dropWhile {p : Char → Bool} : ∀ (l : List Char),
    noTwoSpaces l = true → noTwoSpaces (l.dropWhile p) = true := by
  intro l
  induction l with
  | nil => intro _; rfl
  | cons c t ih =>
    intro h
    rw [List.dropWhile_cons]
    split
    · exact ih (noTwoSpaces_tail h)
    · exact h

theorem stripWs_noTwo (l : List Char) (h : noTwoSpaces l = true) :
    noTwoSpaces (stripWs l) = true :=
  noTwo_dropTrailingWs _ (noTwo_dropWhile l h)

theorem mem_stripWs {x : Char} {l : List Char} (h : x ∈ stripWs l) :
    x ∈ l :=
  (List.dropWhile_sublist pyIsSpace).subset (mem_dropTrailingWs h)

theorem dropWhile_eq_self_of_head {p : Char → Bool} {l : List Char}
    (h : ∀ c t, l = c :: t → p c = false) : l.dropWhile p = l := by
  cases l with
  | nil => rfl
  | cons c t =>
    rw [List.dropWhile_cons, if_neg (by simp [h c t rfl])]

theorem stripWs_idem (l : List Char) : stripWs (stripWs l) = stripWs l := by
  unfold stripWs
  set y := l.dropWhile pyIsSpace with hy
  have hhead : ∀ c t, dropTrailingWs y = c :: t → pyIsSpace c = false := by
    intro c t hct
    rcases head?_dropTrailingWs y with h1 | h1
    · rw [hct] at h1; exact absurd h1 (by simp)
    · rw [hct] at h1
      cases hyy : y with
      | nil => rw [hyy] at hct; simp [dropTrailingWs] at hct
      | cons e v =>
        rw [hyy] at h1
        simp only [List.head?_cons] at h1
        injection h1 with h1
        rw [h1]
        exact dropWhile_head_false (hy.symm.trans hyy)
  rw [dropWhile_eq_self_of_head hhead, dropTrailingWs_idem]

end TTS

namespace TTS

theorem mem_removeFiltered {x : Char} {l : List Char}
    (h : x ∈ removeFiltered l) :
    isVariationOrZWJ x = false ∧ isBidiIsolate x = false ∧
      isEmojiChar x = false := by
  unfold removeFiltered at h
  have h3 := List.mem_filter.1 h
  have h2 := List.mem_filter.1 h3.1
  have h1 := List.mem_filter.1 h2.1
  exact ⟨by simpa using h1.2, by simpa using h2.2, by simpa using h3.2⟩

theorem sanitize_chars {x : Char} {l : List Char}
    (h : x ∈ stripWs (collapseWs (removeFiltered l))) :
    isVariationOrZWJ x = false ∧ isBidiIsolate x = false ∧
      isEmojiChar x = false := by
  have h1 := mem_stripWs h
  rcases mem_collapseWs h1 with h2 | h2
  · exact mem_removeFiltered h2
  · subst h2
    exact ⟨by decide, by decide, by decide⟩

theorem removeFiltered_eq_self {l : List Char}
    (h : ∀ x ∈ l, isVariationOrZWJ x = false ∧ isBidiIsolate x = false ∧
      isEmojiChar x = false) : removeFiltered l = l := by
  unfold removeFiltered
  have h1 : l.filter (fun c => !isVariationOrZWJ c) = l :=
    List.filter_eq_self.2 (fun a ha => by simp [(h a ha).1])
  rw [h1]
  have h2 : l.filter (fun c => !isBidiIsolate c) = l :=
    List.filter_eq_self.2 (fun a ha => by simp [(h a ha).2.1])
  rw [h2]
  exact List.filter_eq_self.2 (fun a ha => by simp [(h a ha).2.2])

theorem flatten_chunksOf (n : ℕ) : ∀ (m : ℕ) (l : List Char),
    l.length ≤ m → (chunksOf n l).flatten = l := by
  intro m
  induction m with
  | zero =>
    intro l hl
    have hnil : l = [] := List.eq_nil_of_length_eq_zero (by omega)
    subst hnil
    simp [chunksOf]
  | succ m ih =>
    intro l hl
    cases l with
    | nil => simp [chunksOf]
    | cons c rest =>
      have hlen : (rest.drop (n - 1)).length ≤ m := by
        simp only [List.length_drop]
        simp only [List.length_cons] at hl
        omega
      rw [chunksOf, List.flatten_cons, ih (rest.drop (n - 1)) hlen,
        List.cons_append, List.take_append_drop]

theorem sanitize_tts_text_idem (l : List Char) :
    sanitize_tts_text (sanitize_tts_text l) = sanitize_tts_text l := by
  by_cases hl : l = []
  · subst hl; rfl
  · have hstep : sanitize_tts_text l =
        stripWs (collapseWs (removeFiltered l)) := by
      unfold sanitize_tts_text
      rw [if_neg hl]
    rw [hstep]
    set out := stripWs (collapseWs (removeFiltered l)) with hout
    by_cases hout0 : out = []
    · rw [hout0]; rfl
    · unfold sanitize_tts_text
      rw [if_neg hout0]
      have hchars : ∀ x ∈ out, isVariationOrZWJ x = false ∧
          isBidiIsolate x = false ∧ isEmojiChar x = false := by
        intro x hx
        exact sanitize_chars (by rw [← hout]; exact hx)
      have hrf : removeFiltered out = out := removeFiltered_eq_self hchars
      have hnoTwo : noTwoSpaces out = true := by
        rw [hout]
        exact stripWs_noTwo _ (collapseWs_noTwo _)
      rw [hrf, collapseWs_id out hnoTwo, hout, stripWs_idem]

end TTS

/-- C10: the TTS sanitizer is idempotent, and the text `streaming_speak`
actually sends to streaming synthesis — the concatenation of its
`CHUNK_CHARS`-character request slices — is exactly the sanitized form of
its argument (emoji, variation selectors, zero-width joiners and bidi
isolates removed, whitespace runs collapsed, ends stripped), not the
argument verbatim. -/
theorem C10_sanitize_idempotent_and_sent_text (t : List Char) :
    TTS.sanitize_tts_text (TTS.sanitize_tts_text t) =
      TTS.sanitize_tts_text t ∧
    (TTS.tts_request_texts t).flatten = TTS.sanitize_tts_text t := by
  refine ⟨TTS.sanitize_tts_text_idem t, ?_⟩
  unfold TTS.tts_request_texts
  exact TTS.flatten_chunksOf TTS.CHUNK_CHARS
    (TTS.sanitize_tts_text t).length _ le_rfl
